import Mathlib

/-!
# Verification of the msrx MSR605 magstripe library

Shallow embedding of the protocol/codec core of the `msrx` repository
(`msrx/__init__.py` and `msrx/msr605x.py`) and proofs of the specification's
testable properties.

Byte strings are modelled as `List Nat` (each element intended `< 256`);
character strings as `List Nat` of code points.  Python's arbitrary-precision
bitwise operators map to `Nat`'s `&&&`, `|||`, `<<<`, `>>>`; the two places the
source applies a bitwise operation to a possibly negative quantity are modelled
through `Int.emod` / a mod-2 identity, each marked with a comment.
-/

/-! ## Bit-stream model (specification side)

Little-endian bit lists: bit 0 of a byte comes first, bytes in stream order.
These definitions are the reference model against which the bit-packing loops
of `ISO7811._enc` / `ISO7811._dec` are characterised. -/

/-- Value of a little-endian bit list. -/
def ofBits : List Bool → Nat
  | [] => 0
  | b :: t => (if b then 1 else 0) + 2 * ofBits t

/-- The `n` low bits of `w`, little-endian. -/
def toBits : Nat → Nat → List Bool
  | 0, _ => []
  | n + 1, w => (w % 2 = 1) :: toBits n (w / 2)

/-- The bit stream of a byte string, least-significant bit of each byte first. -/
def streamBits (l : List Nat) : List Bool :=
  (l.map (toBits 8)).flatten

/-- Repack a bit stream into bytes of 8 bits; a trailing partial byte is
zero-padded at its high end (i.e. simply taken as the value of the remaining
bits). -/
def packBytes (bl : List Bool) : List Nat :=
  (List.range ((bl.length + 7) / 8)).map (fun i => ofBits ((bl.drop (8 * i)).take 8))

/-! ### Lemmas about the bit-stream model -/

theorem ofBits_cons (b : Bool) (t : List Bool) :
    ofBits (b :: t) = (if b then 1 else 0) + 2 * ofBits t := rfl

theorem ofBits_lt (l : List Bool) : ofBits l < 2 ^ l.length := by
  induction l with
  | nil => simp [ofBits]
  | cons b t ih =>
      rw [ofBits_cons, List.length_cons, pow_succ]
      have hb : (if b then 1 else 0) ≤ 1 := by cases b <;> simp
      omega

theorem ofBits_append (l1 l2 : List Bool) :
    ofBits (l1 ++ l2) = ofBits l1 + 2 ^ l1.length * ofBits l2 := by
  induction l1 with
  | nil => simp [ofBits]
  | cons b t ih =>
      rw [List.cons_append, ofBits_cons, ofBits_cons, ih, List.length_cons, pow_succ]
      ring

theorem toBits_length (n w : Nat) : (toBits n w).length = n := by
  induction n generalizing w with
  | zero => rfl
  | succ k ih => simp [toBits, ih]

/-- Bottom-split of `mod` by a power of two. -/
theorem mod_two_pow_succ (x k : Nat) : x % 2 ^ (k + 1) = x % 2 + 2 * (x / 2 % 2 ^ k) := by
  have h1 : 2 * (x / 2) % (2 * 2 ^ k) = 2 * (x / 2 % 2 ^ k) := Nat.mul_mod_mul_left 2 _ _
  have h2 : x = 2 * (x / 2) + x % 2 := by omega
  have h3 : x % 2 ^ k < 2 ^ k := Nat.mod_lt _ (Nat.pos_pow_of_pos _ (by omega))
  have h4 : x / 2 % 2 ^ k < 2 ^ k := Nat.mod_lt _ (Nat.pos_pow_of_pos _ (by omega))
  calc x % 2 ^ (k + 1) = (2 * (x / 2) + x % 2) % (2 * 2 ^ k) := by
        rw [← h2, pow_succ, Nat.mul_comm (2 ^ k) 2]
    _ = (2 * (x / 2) % (2 * 2 ^ k) + x % 2 % (2 * 2 ^ k)) % (2 * 2 ^ k) := by
        rw [Nat.add_mod]
    _ = (2 * (x / 2 % 2 ^ k) + x % 2 % (2 * 2 ^ k)) % (2 * 2 ^ k) := by rw [h1]
    _ = x % 2 + 2 * (x / 2 % 2 ^ k) := by
        have h5 : x % 2 < 2 := Nat.mod_lt _ (by omega)
        have h6 : (0 : Nat) < 2 ^ k := Nat.pos_pow_of_pos _ (by omega)
        have h7 : x % 2 % (2 * 2 ^ k) = x % 2 := Nat.mod_eq_of_lt (by omega)
        rw [h7]
        have h8 : 2 * (x / 2 % 2 ^ k) + x % 2 < 2 * 2 ^ k := by omega
        rw [Nat.mod_eq_of_lt h8]; omega

theorem toBits_succ (n w : Nat) :
    toBits (n + 1) w = (decide (w % 2 = 1)) :: toBits n (w / 2) := rfl

theorem ofBits_toBits (n w : Nat) : ofBits (toBits n w) = w % 2 ^ n := by
  induction n generalizing w with
  | zero => simp [toBits, ofBits, Nat.mod_one]
  | succ k ih =>
      rw [toBits_succ, ofBits_cons, ih, mod_two_pow_succ]
      rcases Nat.mod_two_eq_zero_or_one w with h | h <;> simp [h]

theorem toBits_ofBits (l : List Bool) : toBits l.length (ofBits l) = l := by
  induction l with
  | nil => rfl
  | cons b t ih =>
      rw [List.length_cons, toBits_succ, ofBits_cons]
      cases b with
      | false =>
          rw [show ((if false then 1 else 0) + 2 * ofBits t) = 2 * ofBits t by simp]
          rw [show (2 * ofBits t) / 2 = ofBits t by omega, ih]
          simp [show (2 * ofBits t) % 2 = 0 by omega]
      | true =>
          rw [show ((if true then 1 else 0) + 2 * ofBits t) = 1 + 2 * ofBits t by simp]
          rw [show (1 + 2 * ofBits t) / 2 = ofBits t by omega, ih]
          simp [show (1 + 2 * ofBits t) % 2 = 1 by omega]

theorem toBits_congr (n : Nat) {w w' : Nat} (h : w % 2 ^ n = w' % 2 ^ n) :
    toBits n w = toBits n w' := by
  induction n generalizing w w' with
  | zero => rfl
  | succ k ih =>
      rw [mod_two_pow_succ, mod_two_pow_succ] at h
      have h3 : w / 2 % 2 ^ k < 2 ^ k := Nat.mod_lt _ (Nat.pos_pow_of_pos _ (by omega))
      have h4 : w' / 2 % 2 ^ k < 2 ^ k := Nat.mod_lt _ (Nat.pos_pow_of_pos _ (by omega))
      have hm : w % 2 = w' % 2 := by omega
      have hd : w / 2 % 2 ^ k = w' / 2 % 2 ^ k := by omega
      rw [toBits_succ, toBits_succ, hm, ih hd]

/-- Splitting `toBits` of a sum of widths. -/
theorem toBits_add (a b w : Nat) :
    toBits (a + b) w = toBits a w ++ toBits b (w / 2 ^ a) := by
  induction a generalizing w with
  | zero => simp [toBits]
  | succ k ih =>
      rw [Nat.succ_add, toBits_succ, toBits_succ, ih, List.cons_append]
      have : w / 2 / 2 ^ k = w / 2 ^ (k + 1) := by
        rw [Nat.div_div_eq_div_mul, pow_succ, Nat.mul_comm (2 ^ k) 2]
      rw [this]

theorem toBits_add_mul {a : Nat} (b : Nat) {w : Nat} (g : Nat) (hw : w < 2 ^ a) :
    toBits (a + b) (w + 2 ^ a * g) = toBits a w ++ toBits b g := by
  rw [toBits_add]
  have h1 : (w + 2 ^ a * g) / 2 ^ a = g := by
    rw [Nat.add_mul_div_left _ _ (Nat.pos_pow_of_pos _ (by omega)),
      Nat.div_eq_of_lt hw, Nat.zero_add]
  have h2 : toBits a (w + 2 ^ a * g) = toBits a w := by
    apply toBits_congr
    rw [Nat.add_mul_mod_self_left]
  rw [h1, h2]

theorem ofBits_take (l : List Bool) (n : Nat) : ofBits (l.take n) = ofBits l % 2 ^ n := by
  induction l generalizing n with
  | nil => simp [ofBits, Nat.zero_mod]
  | cons b t ih =>
      cases n with
      | zero => simp [ofBits, Nat.mod_one]
      | succ k =>
          rw [List.take_succ_cons, ofBits_cons, ofBits_cons, ih, mod_two_pow_succ]
          have hb : (if b then 1 else 0) ≤ 1 := by cases b <;> simp
          have h1 : ((if b then 1 else 0) + 2 * ofBits t) / 2 = ofBits t := by omega
          have h2 : ((if b then 1 else 0) + 2 * ofBits t) % 2 = (if b then 1 else 0) := by
            omega
          rw [h1, h2]

theorem ofBits_replicate_false (r : Nat) : ofBits (List.replicate r false) = 0 := by
  induction r with
  | zero => rfl
  | succ k ih => simp [List.replicate, ofBits, ih]

theorem ofBits_append_replicate_false (l : List Bool) (r : Nat) :
    ofBits (l ++ List.replicate r false) = ofBits l := by
  rw [ofBits_append, ofBits_replicate_false, Nat.mul_zero, Nat.add_zero]

/-! ### Nat bitwise helpers -/

theorem one_shiftLeft (n : Nat) : (1 <<< n) = 2 ^ n := by
  rw [Nat.shiftLeft_eq, Nat.one_mul]

theorem land_two_pow_sub_one (x n : Nat) : x &&& ((1 <<< n) - 1) = x % 2 ^ n := by
  rw [one_shiftLeft]
  apply Nat.eq_of_testBit_eq
  intro i
  rw [Nat.testBit_land, Nat.testBit_two_pow_sub_one, Nat.testBit_mod_two_pow,
    Bool.and_comm]

/-- A bitwise or of disjoint parts is an addition. -/
theorem lor_mul_pow_two {a : Nat} (k b : Nat) (h : a < 2 ^ k) :
    a ||| 2 ^ k * b = a + 2 ^ k * b := by
  apply Nat.eq_of_testBit_eq
  intro j
  have hmul : ∀ i, (2 ^ k * b).testBit i = if i < k then false else b.testBit (i - k) := by
    intro i
    have := Nat.testBit_mul_pow_two_add b (show 0 < 2 ^ k from Nat.pos_pow_of_pos _ (by omega)) i
    simpa using this
  have hadd := Nat.testBit_mul_pow_two_add b h j
  rw [Nat.add_comm (2 ^ k * b) a] at hadd
  rw [Nat.testBit_lor, hadd, hmul j]
  by_cases hj : j < k
  · simp [hj]
  · simp only [hj, if_false]
    have : a.testBit j = false :=
      Nat.testBit_lt_two_pow (lt_of_lt_of_le h (Nat.pow_le_pow_right (by omega) (by omega)))
    simp [this]

theorem mul_pow_mod_pow (p a m : Nat) (h : a ≤ m) :
    p * 2 ^ a % 2 ^ m = 2 ^ a * (p % 2 ^ (m - a)) := by
  have hm : 2 ^ m = 2 ^ a * 2 ^ (m - a) := by
    rw [← pow_add]; congr 1; omega
  rw [hm, Nat.mul_comm p, Nat.mul_mod_mul_left]

theorem add_mul_lt_pow {a b k m : Nat} (ha : a < 2 ^ k) (hb : b < 2 ^ m) :
    a + 2 ^ k * b < 2 ^ (k + m) := by
  have h1 : a + 2 ^ k * b < 2 ^ k * (b + 1) := by
    rw [Nat.mul_succ]; omega
  have h2 : 2 ^ k * (b + 1) ≤ 2 ^ k * 2 ^ m := Nat.mul_le_mul_left _ (by omega)
  rw [pow_add]; omega

/-! ### streamBits / packBytes lemmas -/

theorem streamBits_nil : streamBits [] = [] := rfl

theorem streamBits_cons (x : Nat) (l : List Nat) :
    streamBits (x :: l) = toBits 8 x ++ streamBits l := by
  simp [streamBits]

theorem streamBits_length (l : List Nat) : (streamBits l).length = 8 * l.length := by
  induction l with
  | nil => rfl
  | cons x t ih => rw [streamBits_cons, List.length_append, toBits_length, ih,
      List.length_cons]; ring

theorem packBytes_nil : packBytes [] = [] := rfl

theorem packBytes_cons_chunk (bl : List Bool) (h : bl ≠ []) :
    packBytes bl = ofBits (bl.take 8) :: packBytes (bl.drop 8) := by
  have hpos : 0 < bl.length := List.length_pos.mpr h
  have hn : (bl.length + 7) / 8 = ((bl.drop 8).length + 7) / 8 + 1 := by
    simp only [List.length_drop]; omega
  simp only [packBytes, hn, List.range_succ_eq_map, List.map_cons, List.map_map,
    Nat.mul_zero, List.drop_zero]
  congr 1
  apply List.map_congr_left
  intro i _
  simp only [Function.comp_apply]
  rw [show 8 * Nat.succ i = 8 + 8 * i by omega, ← List.drop_drop]

theorem packBytes_toBits8 (w : Nat) (bl : List Bool) :
    packBytes (toBits 8 w ++ bl) = (w % 256) :: packBytes bl := by
  have hne : toBits 8 w ++ bl ≠ [] := by
    have : 0 < (toBits 8 w ++ bl).length := by
      rw [List.length_append, toBits_length]; omega
    exact List.ne_nil_of_length_pos this
  rw [packBytes_cons_chunk _ hne, List.take_left' (toBits_length 8 w),
    List.drop_left' (toBits_length 8 w), ofBits_toBits]
  norm_num

theorem packBytes_streamBits (l : List Nat) (h : ∀ x ∈ l, x < 256) :
    packBytes (streamBits l) = l := by
  induction l with
  | nil => rfl
  | cons x t ih =>
      rw [streamBits_cons, packBytes_toBits8, Nat.mod_eq_of_lt (h x (by simp)),
        ih (fun y hy => h y (by simp [hy]))]

/-- Number of set bits among the 8 low bits of `p`. -/
def bitCount (p : Nat) : Nat := (toBits 8 p).count true

/-- The odd-parity bit for a data value `p`: `1` when `p` has an even number of
set bits, so that data plus parity always carries an odd number of set bits. -/
def oddParityBit (p : Nat) : Nat := (bitCount p + 1) % 2

/-- `ofBits` of an all-false list is zero. -/
theorem ofBits_eq_zero_of_all_false {l : List Bool} (h : ∀ x ∈ l, x = false) :
    ofBits l = 0 := by
  induction l with
  | nil => rfl
  | cons b t ih =>
      rw [ofBits_cons, h b (by simp), ih (fun x hx => h x (by simp [hx]))]
      simp

/-! ## ISO 7811 density codec — embedding of `ISO7811` (`msrx/__init__.py`) -/


namespace ISO7811

/-- `_PARAM_MAP = {1: (0x20, 7), 2: (0x30, 5), 3: (0x30, 5)}` —
per-track `(low_code_point, bits_per_character)`. -/
def _PARAM_MAP (track : Nat) : Option (Nat × Nat) :=
  if track = 1 then some (0x20, 7)
  else if track = 2 then some (0x30, 5)
  else if track = 3 then some (0x30, 5)
  else none

/-- First line of the per-character body of `ISO7811._dec`:

    part = (ord(d) - low) & ((1 << (bits - 1)) - 1)

`ord(d) - low` may be negative in Python; masking a (two's-complement) integer
`x` with `(1 << k) - 1` equals `x mod 2^k`, modelled with `Int.emod`. -/
def dataPart (low bits d : Nat) : Nat :=
  (((d : Int) - (low : Int)) % ((1 <<< (bits - 1) : Nat) : Int)).toNat

/-- The parity expression of `ISO7811._dec`:

    ~(((part * 0x0101010101010101) & 0x8040201008040201) % 0x1FF) & 1

The multiply-and-mask trick sums the bits of `part`; Python's `~y & 1` equals
`(y + 1) mod 2`, which is how the complement is modelled on `Nat`. -/
def parityCalc (part : Nat) : Nat :=
  (((part * 0x0101010101010101) &&& 0x8040201008040201) % 0x1FF + 1) % 2

/-- The complete `bits`-wide group a character contributes in `ISO7811._dec`:
data bits with the computed odd-parity bit or-ed into the top position:

    part |= (parity) << (bits - 1)
-/
def fullGroup (low bits d : Nat) : Nat :=
  dataPart low bits d ||| (parityCalc (dataPart low bits d) <<< (bits - 1))

/-- The accumulation loop of `ISO7811._dec`: state `whole` holds the `atbit`
bits already assembled for the byte in progress; each character contributes a
`bits`-wide group; a byte is emitted whenever 8 bits are available, and the
final partial byte (if any) is flushed at end of input. -/
def decLoop (low bits : Nat) : List Nat → Nat → Nat → List Nat
  | [], whole, atbit =>
      -- `if atbit > 0: yield to_byte(whole)`
      if 0 < atbit then [whole] else []
  | d :: rest, whole, atbit =>
      let part := fullGroup low bits d
      let whole1 := whole ||| ((part <<< atbit) &&& 255)
      let atbit1 := atbit + bits
      if 7 < atbit1 then
        -- `yield to_byte(whole); atbit %= 8; whole = part >> (bits - atbit)`
        whole1 :: decLoop low bits rest (part >>> (bits - atbit1 % 8)) (atbit1 % 8)
      else
        decLoop low bits rest whole1 atbit1

/-- `ISO7811._dec(data, low, bits)`: character string → raw bytes. -/
def _dec (data : List Nat) (low bits : Nat) : List Nat :=
  decLoop low bits data 0 0

/-- The loop of `ISO7811._enc`, fuelled (the fuel is a strict upper bound on the
number of iterations; `_enc` supplies a sufficient amount).  State: `whole` is
the byte most recently fetched from the input, `atbit` the offset inside it at
which the next `bits`-wide group starts, `rest` the bytes not yet fetched.

    part = (whole >> atbit) & ((1 << bits) - 1)
    atbit += bits
    if atbit > 7:
      whole = ord(next(data))      -- StopIteration ends the generator
      atbit = atbit % 8
      part |= (whole & ((1 << atbit) - 1)) << (bits - atbit)
    if part == 0:
      return
    yield to_uni((part & ((1 << (bits - 1)) - 1)) + low)
-/
def encLoop (low bits : Nat) : Nat → List Nat → Nat → Nat → List Nat
  | 0, _, _, _ => []
  | fuel + 1, rest, whole, atbit =>
      let part := (whole >>> atbit) &&& ((1 <<< bits) - 1)
      let atbit1 := atbit + bits
      if 7 < atbit1 then
        match rest with
        | [] => []  -- StopIteration
        | w :: rest1 =>
            let atbit2 := atbit1 % 8
            let part2 := part ||| ((w &&& ((1 <<< atbit2) - 1)) <<< (bits - atbit2))
            if part2 = 0 then []
            else ((part2 &&& ((1 <<< (bits - 1)) - 1)) + low)
              :: encLoop low bits fuel rest1 w atbit2
      else
        if part = 0 then []
        else ((part &&& ((1 <<< (bits - 1)) - 1)) + low)
          :: encLoop low bits fuel rest whole atbit1

/-- `ISO7811._enc(data, low, bits)`: raw bytes → character string (of code
points).  `whole = ord(next(data))` initially; an empty input yields nothing. -/
def _enc (data : List Nat) (low bits : Nat) : List Nat :=
  match data with
  | [] => []
  | w :: rest => encLoop low bits (8 * data.length + 8) rest w 0

/-- The bits-wide group of a bit stream `s` starting at offset `j * bits`. -/
def grp (bits : Nat) (s : List Bool) (j : Nat) : Nat :=
  ofBits ((s.drop (j * bits)).take bits)

/-- Number of groups `_enc` can take from a stream of `n` bits: a group is
consumed only when the generator can look at least one bit past it (fetching
the byte containing that bit), so groups ending at or beyond bit `n` are never
emitted. -/
def availGroups (bits n : Nat) : Nat := (n - 1) / bits

/-- Reference description of `_enc` on the bit stream `s`: take every
available group, stop at the first group whose full `bits`-wide value is zero,
and emit `low +` the data bits (parity bit stripped) of each group kept. -/
def encSpec (low bits : Nat) (s : List Bool) : List Nat :=
  (((List.range (availGroups bits s.length)).map (grp bits s)).takeWhile (· ≠ 0)).map
    (fun g => g % 2 ^ (bits - 1) + low)

end ISO7811

namespace ISO7811

/-! ### Characterisation of `_enc` -/

theorem availGroups_eq_zero {bits n : Nat} (h : n ≤ bits) : availGroups bits n = 0 := by
  rcases Nat.eq_zero_or_pos bits with hb | hb
  · simp [availGroups, hb]
  · exact Nat.div_eq_of_lt (by omega)

theorem availGroups_step {bits n : Nat} (hb : 0 < bits) (h : bits < n) :
    availGroups bits n = availGroups bits (n - bits) + 1 := by
  unfold availGroups
  rw [show n - 1 = (n - bits - 1) + bits by omega]
  exact Nat.add_div_right _ hb

theorem grp_succ (bits : Nat) (s : List Bool) (j : Nat) :
    grp bits s (j + 1) = grp bits (s.drop bits) j := by
  simp only [grp, List.drop_drop]
  congr 3
  ring

theorem encSpec_stop (low bits : Nat) {s : List Bool} (h : s.length ≤ bits) :
    encSpec low bits s = [] := by
  simp [encSpec, availGroups_eq_zero h]

theorem encSpec_step (low bits : Nat) {s : List Bool} (hb : 0 < bits) (h : bits < s.length) :
    encSpec low bits s =
      if grp bits s 0 = 0 then []
      else (grp bits s 0 % 2 ^ (bits - 1) + low) :: encSpec low bits (s.drop bits) := by
  unfold encSpec
  rw [availGroups_step hb h, List.range_succ_eq_map, List.map_cons, List.map_map]
  have hmap : List.map (grp bits s ∘ Nat.succ) (List.range (availGroups bits (s.length - bits)))
      = List.map (grp bits (s.drop bits)) (List.range (availGroups bits (s.length - bits))) := by
    apply List.map_congr_left
    intro j _
    simp only [Function.comp_apply]
    exact grp_succ bits s j
  rw [hmap, List.takeWhile_cons, List.length_drop]
  by_cases h0 : grp bits s 0 = 0
  · simp [h0]
  · simp [h0]

/-- The `_enc` loop computes `encSpec` of the remaining bit stream: the bits of
`whole` from position `atbit` up, followed by the bits of the unfetched
input. -/
theorem encLoop_eq (low bits : Nat) (hb0 : 0 < bits) (hb7 : bits ≤ 7) :
    ∀ (fuel : Nat) (rest : List Nat) (whole atbit : Nat),
      (∀ x ∈ rest, x < 256) → whole < 256 → atbit ≤ 7 →
      8 * rest.length + 8 - atbit ≤ fuel →
      encLoop low bits fuel rest whole atbit =
        encSpec low bits (toBits (8 - atbit) (whole >>> atbit) ++ streamBits rest) := by
  intro fuel
  induction fuel with
  | zero => intro rest whole atbit _ _ ha hf; omega
  | succ fuel ih =>
      intro rest whole atbit hrest hw ha hf
      have hp : (0 : Nat) < 2 ^ atbit := Nat.pos_pow_of_pos _ (by omega)
      have hpow8 : (2 : Nat) ^ (8 - atbit) * 2 ^ atbit = 2 ^ 8 := by
        rw [← pow_add]; congr 1; omega
      have hWlt : whole / 2 ^ atbit < 2 ^ (8 - atbit) := by
        rw [Nat.div_lt_iff_lt_mul hp, hpow8]; omega
      have hsr : whole >>> atbit = whole / 2 ^ atbit := Nat.shiftRight_eq_div_pow _ _
      by_cases hfetch : 7 < atbit + bits
      · -- the group needs the next input byte
        have hle : 8 - atbit ≤ bits := by omega
        have hWlt2 : whole / 2 ^ atbit < 2 ^ bits :=
          lt_of_lt_of_le hWlt (Nat.pow_le_pow_right (by omega) hle)
        have hpart : whole >>> atbit &&& ((1 <<< bits) - 1) = whole / 2 ^ atbit := by
          rw [hsr, land_two_pow_sub_one, Nat.mod_eq_of_lt hWlt2]
        cases rest with
        | nil =>
            simp only [encLoop, if_pos hfetch]
            rw [encSpec_stop]
            rw [List.length_append, toBits_length, streamBits_length]
            simp only [List.length_nil]
            omega
        | cons w rest1 =>
            have hwlt : w < 256 := hrest w (by simp)
            have hmod8 : (atbit + bits) % 8 = atbit + bits - 8 := by omega
            have hw2 : w &&& ((1 <<< ((atbit + bits) % 8)) - 1) = w % 2 ^ (atbit + bits - 8) := by
              rw [hmod8, land_two_pow_sub_one]
            have hshift : (w % 2 ^ (atbit + bits - 8)) <<< (bits - (atbit + bits) % 8)
                = 2 ^ (8 - atbit) * (w % 2 ^ (atbit + bits - 8)) := by
              rw [hmod8, Nat.shiftLeft_eq, Nat.mul_comm,
                show bits - (atbit + bits - 8) = 8 - atbit by omega]
            have hor : whole / 2 ^ atbit ||| 2 ^ (8 - atbit) * (w % 2 ^ (atbit + bits - 8))
                = whole / 2 ^ atbit + 2 ^ (8 - atbit) * (w % 2 ^ (atbit + bits - 8)) :=
              lor_mul_pow_two _ _ hWlt
            -- the stream and its head group
            have hsplitw : toBits 8 w
                = toBits (atbit + bits - 8) w ++ toBits (8 - (atbit + bits - 8)) (w / 2 ^ (atbit + bits - 8)) := by
              rw [← toBits_add, show (atbit + bits - 8) + (8 - (atbit + bits - 8)) = 8 by omega]
            have hlenF : (toBits (8 - atbit) (whole >>> atbit) ++ toBits (atbit + bits - 8) w).length = bits := by
              rw [List.length_append, toBits_length, toBits_length]; omega
            have hstream : toBits (8 - atbit) (whole >>> atbit) ++ streamBits (w :: rest1)
                = (toBits (8 - atbit) (whole >>> atbit) ++ toBits (atbit + bits - 8) w)
                  ++ (toBits (8 - (atbit + bits - 8)) (w / 2 ^ (atbit + bits - 8)) ++ streamBits rest1) := by
              rw [streamBits_cons, hsplitw]
              simp [List.append_assoc]
            have hlen : bits < (toBits (8 - atbit) (whole >>> atbit) ++ streamBits (w :: rest1)).length := by
              rw [List.length_append, toBits_length, streamBits_length, List.length_cons]
              omega
            have hgrp : grp bits (toBits (8 - atbit) (whole >>> atbit) ++ streamBits (w :: rest1)) 0
                = whole / 2 ^ atbit + 2 ^ (8 - atbit) * (w % 2 ^ (atbit + bits - 8)) := by
              unfold grp
              rw [Nat.zero_mul, List.drop_zero, hstream, List.take_left' hlenF, ofBits_append,
                hsr, ofBits_toBits, ofBits_toBits, toBits_length,
                Nat.mod_eq_of_lt hWlt]
            have hdrop : (toBits (8 - atbit) (whole >>> atbit) ++ streamBits (w :: rest1)).drop bits
                = toBits (8 - (atbit + bits) % 8) (w >>> ((atbit + bits) % 8)) ++ streamBits rest1 := by
              rw [hstream, List.drop_left' hlenF, hmod8, Nat.shiftRight_eq_div_pow]
            rw [encSpec_step low bits hb0 hlen, hgrp, hdrop]
            simp only [encLoop, if_pos hfetch]
            rw [hpart, hw2, hshift, hor]
            by_cases h0 : whole / 2 ^ atbit + 2 ^ (8 - atbit) * (w % 2 ^ (atbit + bits - 8)) = 0
            · simp [h0]
            · simp only [h0, if_neg, if_false]
              rw [land_two_pow_sub_one]
              congr 1
              exact ih rest1 w ((atbit + bits) % 8) (fun x hx => hrest x (by simp [hx]))
                hwlt (by omega) (by simp only [List.length_cons] at hf; omega)
      · -- the group fits in the current byte
        have hlt : bits < 8 - atbit := by omega
        have hpart : whole >>> atbit &&& ((1 <<< bits) - 1) = whole / 2 ^ atbit % 2 ^ bits := by
          rw [hsr, land_two_pow_sub_one]
        have hsplit : toBits (8 - atbit) (whole >>> atbit)
            = toBits bits (whole >>> atbit) ++ toBits (8 - atbit - bits) (whole >>> atbit / 2 ^ bits) := by
          rw [← toBits_add, show bits + (8 - atbit - bits) = 8 - atbit by omega]
        have hlenF : (toBits bits (whole >>> atbit)).length = bits := toBits_length _ _
        have hstream : toBits (8 - atbit) (whole >>> atbit) ++ streamBits rest
            = toBits bits (whole >>> atbit)
              ++ (toBits (8 - atbit - bits) (whole >>> atbit / 2 ^ bits) ++ streamBits rest) := by
          rw [hsplit, List.append_assoc]
        have hlen : bits < (toBits (8 - atbit) (whole >>> atbit) ++ streamBits rest).length := by
          rw [List.length_append, toBits_length, streamBits_length]
          omega
        have hgrp : grp bits (toBits (8 - atbit) (whole >>> atbit) ++ streamBits rest) 0
            = whole / 2 ^ atbit % 2 ^ bits := by
          unfold grp
          rw [Nat.zero_mul, List.drop_zero, hstream, List.take_left' hlenF, hsr, ofBits_toBits]
        have hdrop : (toBits (8 - atbit) (whole >>> atbit) ++ streamBits rest).drop bits
            = toBits (8 - (atbit + bits)) (whole >>> (atbit + bits)) ++ streamBits rest := by
          rw [hstream, List.drop_left' hlenF, hsr, Nat.div_div_eq_div_mul, ← pow_add,
            Nat.shiftRight_eq_div_pow, show 8 - atbit - bits = 8 - (atbit + bits) by omega]
        rw [encSpec_step low bits hb0 hlen, hgrp, hdrop]
        simp only [encLoop, if_neg hfetch]
        rw [hpart]
        by_cases h0 : whole / 2 ^ atbit % 2 ^ bits = 0
        · simp [h0]
        · simp only [h0, if_neg, if_false]
          rw [land_two_pow_sub_one]
          congr 1
          exact ih rest whole (atbit + bits) hrest hw (by omega) (by omega)

/-- `_enc` equals the reference description on the full input bit stream. -/
theorem _enc_eq (data : List Nat) (low bits : Nat) (hb0 : 0 < bits) (hb7 : bits ≤ 7)
    (hdata : ∀ x ∈ data, x < 256) :
    _enc data low bits = encSpec low bits (streamBits data) := by
  cases data with
  | nil => rw [streamBits_nil, encSpec_stop low bits (by simp)]; rfl
  | cons w rest =>
      show encLoop low bits (8 * (w :: rest).length + 8) rest w 0
        = encSpec low bits (streamBits (w :: rest))
      rw [encLoop_eq low bits hb0 hb7 _ rest w 0 (fun x hx => hdata x (by simp [hx]))
        (hdata w (by simp)) (by omega) (by simp only [List.length_cons]; omega)]
      rw [Nat.shiftRight_zero, Nat.sub_zero, streamBits_cons]

end ISO7811

namespace ISO7811

/-! ### Characterisation of `_dec` -/

theorem dataPart_lt (low bits d : Nat) : dataPart low bits d < 2 ^ (bits - 1) := by
  unfold dataPart
  have hcast : ((1 <<< (bits - 1) : Nat) : Int) = ((2 : Int) ^ (bits - 1)) := by
    rw [one_shiftLeft]; push_cast; ring
  have hpos : (0 : Int) < ((1 <<< (bits - 1) : Nat) : Int) := by
    rw [hcast]; positivity
  have hnn : (0 : Int) ≤ ((d : Int) - (low : Int)) % ((1 <<< (bits - 1) : Nat) : Int) :=
    Int.emod_nonneg _ (ne_of_gt hpos)
  have hlt : ((d : Int) - (low : Int)) % ((1 <<< (bits - 1) : Nat) : Int)
      < ((1 <<< (bits - 1) : Nat) : Int) := Int.emod_lt_of_pos _ hpos
  calc (((d : Int) - (low : Int)) % ((1 <<< (bits - 1) : Nat) : Int)).toNat
      < 1 <<< (bits - 1) := by
        apply (Int.toNat_lt hnn).mpr
        exact_mod_cast hlt
    _ = 2 ^ (bits - 1) := one_shiftLeft _

theorem parityCalc_le (p : Nat) : parityCalc p ≤ 1 := by
  unfold parityCalc
  omega

theorem fullGroup_eq_add (low bits d : Nat) :
    fullGroup low bits d
      = dataPart low bits d + 2 ^ (bits - 1) * parityCalc (dataPart low bits d) := by
  unfold fullGroup
  rw [Nat.shiftLeft_eq, Nat.mul_comm, lor_mul_pow_two _ _ (dataPart_lt low bits d)]

theorem fullGroup_lt (low bits d : Nat) (hb : 0 < bits) :
    fullGroup low bits d < 2 ^ bits := by
  rw [fullGroup_eq_add low bits d]
  have h1 := dataPart_lt low bits d
  have h2 : 2 ^ (bits - 1) * parityCalc (dataPart low bits d) ≤ 2 ^ (bits - 1) * 1 :=
    Nat.mul_le_mul_left _ (parityCalc_le _)
  have h3 : (2 : Nat) ^ bits = 2 ^ (bits - 1) * 2 := by
    rw [← pow_succ]; congr 1; omega
  omega

/-- The `_dec` loop packs the `bits`-wide groups of its input characters into
bytes, flushing the partial byte held in `whole` at the end. -/
theorem decLoop_eq (low bits : Nat) (hb0 : 0 < bits) (hb8 : bits ≤ 8) :
    ∀ (c : List Nat) (whole atbit : Nat), atbit ≤ 7 → whole < 2 ^ atbit →
      decLoop low bits c whole atbit =
        packBytes (toBits atbit whole
          ++ (c.map (fun d => toBits bits (fullGroup low bits d))).flatten) := by
  intro c
  induction c with
  | nil =>
      intro whole atbit ha hw
      show (if 0 < atbit then [whole] else []) = _
      simp only [List.map_nil, List.flatten_nil, List.append_nil]
      by_cases h : 0 < atbit
      · rw [if_pos h]
        have hne : toBits atbit whole ≠ [] := by
          intro hc
          have := toBits_length atbit whole
          rw [hc] at this
          simp at this
          omega
        rw [packBytes_cons_chunk _ hne,
          List.take_of_length_le (by rw [toBits_length]; omega),
          List.drop_eq_nil_of_le (by rw [toBits_length]; omega),
          packBytes_nil, ofBits_toBits, Nat.mod_eq_of_lt hw]
      · rw [if_neg h]
        have hz : atbit = 0 := by omega
        subst hz
        rw [show toBits 0 whole = [] from rfl, packBytes_nil]
  | cons d rest ih =>
      intro whole atbit ha hw
      have hg : fullGroup low bits d < 2 ^ bits := fullGroup_lt low bits d hb0
      have hland : (fullGroup low bits d <<< atbit) &&& 255
          = 2 ^ atbit * (fullGroup low bits d % 2 ^ (8 - atbit)) := by
        rw [Nat.shiftLeft_eq, show (255 : Nat) = (1 <<< 8) - 1 from rfl,
          land_two_pow_sub_one, mul_pow_mod_pow _ _ _ (by omega)]
      have hor : whole ||| 2 ^ atbit * (fullGroup low bits d % 2 ^ (8 - atbit))
          = whole + 2 ^ atbit * (fullGroup low bits d % 2 ^ (8 - atbit)) :=
        lor_mul_pow_two _ _ hw
      simp only [decLoop, List.map_cons, List.flatten_cons, hland, hor]
      by_cases hyield : 7 < atbit + bits
      · rw [if_pos hyield]
        have hmod8 : (atbit + bits) % 8 = atbit + bits - 8 := by omega
        have hsplitg : toBits bits (fullGroup low bits d)
            = toBits (8 - atbit) (fullGroup low bits d)
              ++ toBits (atbit + bits - 8) (fullGroup low bits d / 2 ^ (8 - atbit)) := by
          rw [← toBits_add, show (8 - atbit) + (atbit + bits - 8) = bits by omega]
        have hY : whole + 2 ^ atbit * (fullGroup low bits d % 2 ^ (8 - atbit)) < 256 := by
          have := add_mul_lt_pow hw (Nat.mod_lt (fullGroup low bits d)
            (Nat.pos_pow_of_pos (8 - atbit) (by omega)))
          rw [show atbit + (8 - atbit) = 8 by omega] at this
          exact this
        have hprefix : toBits atbit whole ++ toBits (8 - atbit) (fullGroup low bits d)
            = toBits 8 (whole + 2 ^ atbit * (fullGroup low bits d % 2 ^ (8 - atbit))) := by
          have h1 := toBits_add_mul (a := atbit) (8 - atbit)
            (fullGroup low bits d % 2 ^ (8 - atbit)) hw
          rw [show atbit + (8 - atbit) = 8 by omega] at h1
          have h2 : toBits (8 - atbit) (fullGroup low bits d)
              = toBits (8 - atbit) (fullGroup low bits d % 2 ^ (8 - atbit)) :=
            toBits_congr _ (Nat.mod_mod_of_dvd _ (dvd_refl _)).symm
          rw [h2, ← h1]
        rw [hsplitg, ← List.append_assoc, ← List.append_assoc, hprefix, List.append_assoc,
          packBytes_toBits8, Nat.mod_eq_of_lt (by norm_num [hY] : _ < 256)]
        congr 1
        have hstored : fullGroup low bits d >>> (bits - (atbit + bits) % 8)
            = fullGroup low bits d / 2 ^ (8 - atbit) := by
          rw [hmod8, show bits - (atbit + bits - 8) = 8 - atbit by omega,
            Nat.shiftRight_eq_div_pow]
        have hstored_lt : fullGroup low bits d / 2 ^ (8 - atbit) < 2 ^ (atbit + bits - 8) := by
          rw [Nat.div_lt_iff_lt_mul (Nat.pos_pow_of_pos _ (by omega)), ← pow_add,
            show atbit + bits - 8 + (8 - atbit) = bits by omega]
          exact hg
        rw [hstored, hmod8, ih _ _ (by omega) hstored_lt]
      · rw [if_neg hyield]
        have hgsmall : fullGroup low bits d % 2 ^ (8 - atbit) = fullGroup low bits d :=
          Nat.mod_eq_of_lt (lt_of_lt_of_le hg (Nat.pow_le_pow_right (by omega) (by omega)))
        rw [hgsmall, ← List.append_assoc,
          show toBits atbit whole ++ toBits bits (fullGroup low bits d)
              = toBits (atbit + bits) (whole + 2 ^ atbit * fullGroup low bits d) from
            (toBits_add_mul bits (fullGroup low bits d) hw).symm,
          ih _ _ (by omega) (add_mul_lt_pow hw hg)]

/-- `_dec` always succeeds and packs the groups of all its input characters. -/
theorem _dec_eq (data : List Nat) (low bits : Nat) (hb0 : 0 < bits) (hb8 : bits ≤ 8) :
    _dec data low bits
      = packBytes ((data.map (fun d => toBits bits (fullGroup low bits d))).flatten) := by
  unfold _dec
  rw [decLoop_eq low bits hb0 hb8 data 0 0 (by omega) (by norm_num)]
  rfl

end ISO7811

namespace ISO7811

/-! ### Round trip `_dec ∘ _enc` -/

/-- The multiply-and-mask parity computation of `_dec` is the odd-parity bit,
for all data values below `2^6` (checked exhaustively). -/
theorem parityCalc_eq_oddParityBit : ∀ p, p < 64 → parityCalc p = oddParityBit p := by
  decide

theorem dataPart_inrange (low bits data : Nat) (h : data < 2 ^ (bits - 1)) :
    dataPart low bits (data + low) = data := by
  unfold dataPart
  have hcast : ((1 <<< (bits - 1) : Nat) : Int) = ((2 : Int) ^ (bits - 1)) := by
    rw [one_shiftLeft]; push_cast; ring
  have hsub : ((data + low : Nat) : Int) - (low : Int) = (data : Int) := by
    push_cast; ring
  rw [hsub, hcast, Int.emod_eq_of_lt (by positivity) (by exact_mod_cast h)]
  exact Int.toNat_natCast data

/-- A group with correct odd parity in its top bit is rebuilt exactly by
`_dec`'s per-character computation from its data bits. -/
theorem fullGroup_reconstruct (low bits g : Nat) (hb0 : 0 < bits) (hb7 : bits ≤ 7)
    (hpar : g / 2 ^ (bits - 1) = oddParityBit (g % 2 ^ (bits - 1))) :
    fullGroup low bits (g % 2 ^ (bits - 1) + low) = g := by
  have hmlt : g % 2 ^ (bits - 1) < 2 ^ (bits - 1) :=
    Nat.mod_lt _ (Nat.pos_pow_of_pos _ (by omega))
  have h64 : g % 2 ^ (bits - 1) < 64 := by
    have : (2 : Nat) ^ (bits - 1) ≤ 2 ^ 6 := Nat.pow_le_pow_right (by omega) (by omega)
    omega
  rw [fullGroup_eq_add, dataPart_inrange low bits _ hmlt,
    parityCalc_eq_oddParityBit _ h64, ← hpar]
  exact Nat.mod_add_div g (2 ^ (bits - 1))

/-- Unfolding the groups of a stream back into the stream's prefix. -/
theorem flatten_toBits_grp (bits : Nat) : ∀ (m : Nat) (s : List Bool),
    m * bits ≤ s.length →
    ((List.range m).map (fun j => toBits bits (grp bits s j))).flatten = s.take (m * bits) := by
  intro m
  induction m with
  | zero => intro s _; simp
  | succ k ih =>
      intro s hlen
      rw [Nat.succ_mul] at hlen ⊢
      have hb : bits ≤ s.length := by omega
      have hlt : (s.take bits).length = bits := by rw [List.length_take]; omega
      have hhead : toBits bits (grp bits s 0) = s.take bits := by
        have h0 := toBits_ofBits (s.take bits)
        rw [hlt] at h0
        simp only [grp, Nat.zero_mul, List.drop_zero]
        exact h0
      rw [List.range_succ_eq_map, List.map_cons, List.flatten_cons, List.map_map, hhead]
      have hmap : List.map ((fun j => toBits bits (grp bits s j)) ∘ Nat.succ) (List.range k)
          = List.map (fun j => toBits bits (grp bits (s.drop bits) j)) (List.range k) := by
        apply List.map_congr_left
        intro j _
        simp only [Function.comp_apply]
        rw [grp_succ]
      rw [hmap, ih (s.drop bits) (by rw [List.length_drop]; omega),
        Nat.add_comm (k * bits) bits, List.take_add]

/-- Re-packing a prefix of a bit stream whose dropped tail is all zeros gives
the same bytes as re-packing the whole stream, provided the byte counts
agree. -/
theorem packBytes_take_of_trailing_false (l : List Bool) (k : Nat) (hk : k ≤ l.length)
    (hcount : (k + 7) / 8 = (l.length + 7) / 8)
    (hz : ∀ x ∈ l.drop k, x = false) :
    packBytes (l.take k) = packBytes l := by
  unfold packBytes
  rw [List.length_take, Nat.min_eq_left hk, hcount]
  apply List.map_congr_left
  intro i _
  rw [ofBits_take, ofBits_take]
  congr 1
  by_cases hik : 8 * i < k
  · rw [List.drop_take]
    conv_rhs => rw [← List.take_append_drop (k - 8 * i) (l.drop (8 * i))]
    rw [ofBits_append, ofBits_eq_zero_of_all_false (l := (l.drop (8 * i)).drop (k - 8 * i))
      (fun x hx => by
        rw [List.drop_drop, show 8 * i + (k - 8 * i) = k by omega] at hx
        exact hz x hx),
      Nat.mul_zero, Nat.add_zero]
  · rw [List.drop_eq_nil_of_le (by rw [List.length_take]; omega)]
    have hrz : ofBits (l.drop (8 * i)) = 0 := by
      apply ofBits_eq_zero_of_all_false
      intro x hx
      rw [show 8 * i = k + (8 * i - k) by omega, ← List.drop_drop] at hx
      exact hz x (List.drop_subset _ _ hx)
    rw [hrz]
    rfl

theorem param_map_bits {track low bits : Nat}
    (h : ISO7811._PARAM_MAP track = some (low, bits)) : 0 < bits ∧ bits ≤ 7 := by
  unfold ISO7811._PARAM_MAP at h
  split_ifs at h <;> simp only [Option.some.injEq, Prod.mk.injEq] at h <;> omega

end ISO7811

theorem flatten_length_toBits (bits : Nat) (f : Nat → Nat) (c : List Nat) :
    ((c.map (fun d => toBits bits (f d))).flatten).length = c.length * bits := by
  induction c with
  | nil => simp
  | cons d t ih =>
      rw [List.map_cons, List.flatten_cons, List.length_append, toBits_length, ih,
        List.length_cons, Nat.succ_mul]
      omega

/-! ## Claim C1: density round trip -/

/-- **C1** (amended).  For every track's `(low, bits)` parameters,
`_dec (_enc b) = b` holds for byte strings `b` that are non-empty and
terminator-free (no available `bits`-wide group of `b`'s bit stream is zero —
the condition stated by the claim), provided additionally that every available
group carries a correct odd-parity bit in its top position and that the bits
of `b` past the last available group are all zero.  The two extra conditions
are forced by `c1_density_roundtrip_counterexample`: `_enc` discards parity
bits and trailing bits, and `_dec` recomputes parity, so they must already
agree in `b`. -/
theorem c1_density_roundtrip (track low bits : Nat)
    (htrack : ISO7811._PARAM_MAP track = some (low, bits))
    (b : List Nat) (hbytes : ∀ x ∈ b, x < 256) (hne : b ≠ [])
    (hterm : ∀ j < ISO7811.availGroups bits (8 * b.length),
      ISO7811.grp bits (streamBits b) j ≠ 0)
    (hparity : ∀ j < ISO7811.availGroups bits (8 * b.length),
      ISO7811.grp bits (streamBits b) j / 2 ^ (bits - 1)
        = oddParityBit (ISO7811.grp bits (streamBits b) j % 2 ^ (bits - 1)))
    (htrail : ∀ x ∈ (streamBits b).drop
        (ISO7811.availGroups bits (8 * b.length) * bits), x = false) :
    ISO7811._dec (ISO7811._enc b low bits) low bits = b := by
  obtain ⟨hb0, hb7⟩ := ISO7811.param_map_bits htrack
  have hL : 0 < b.length := List.length_pos.mpr hne
  have hdm : bits * ISO7811.availGroups bits (8 * b.length) + (8 * b.length - 1) % bits
      = 8 * b.length - 1 := Nat.div_add_mod _ _
  have hmodlt : (8 * b.length - 1) % bits < bits := Nat.mod_lt _ hb0
  have hcomm : ISO7811.availGroups bits (8 * b.length) * bits
      = bits * ISO7811.availGroups bits (8 * b.length) := Nat.mul_comm _ _
  have hmb_le : ISO7811.availGroups bits (8 * b.length) * bits ≤ 8 * b.length - 1 := by
    omega
  have hmb_gt : 8 * b.length - 8 < ISO7811.availGroups bits (8 * b.length) * bits := by
    omega
  have henc : ISO7811._enc b low bits
      = (List.range (ISO7811.availGroups bits (8 * b.length))).map
          (fun j => ISO7811.grp bits (streamBits b) j % 2 ^ (bits - 1) + low) := by
    rw [ISO7811._enc_eq b low bits hb0 hb7 hbytes]
    unfold ISO7811.encSpec
    rw [streamBits_length]
    rw [List.takeWhile_eq_self_iff.mpr (fun x hx => by
      obtain ⟨j, hj, rfl⟩ := List.mem_map.mp hx
      simp [hterm j (List.mem_range.mp hj)]), List.map_map]
    rfl
  have hdec : ISO7811._dec (ISO7811._enc b low bits) low bits
      = packBytes (((List.range (ISO7811.availGroups bits (8 * b.length))).map
          (fun j => toBits bits (ISO7811.grp bits (streamBits b) j))).flatten) := by
    rw [henc, ISO7811._dec_eq _ low bits hb0 (by omega), List.map_map]
    congr 2
    apply List.map_congr_left
    intro j hj
    simp only [Function.comp_apply]
    rw [ISO7811.fullGroup_reconstruct low bits _ hb0 hb7
      (hparity j (List.mem_range.mp hj))]
  rw [hdec, ISO7811.flatten_toBits_grp bits _ (streamBits b)
    (by rw [streamBits_length]; omega)]
  rw [ISO7811.packBytes_take_of_trailing_false (streamBits b) _
    (by rw [streamBits_length]; omega)
    (by rw [streamBits_length]; omega) htrail]
  exact packBytes_streamBits b hbytes

/-- **C1** counterexample.  `b = [0xFF]` on track 2/3 parameters `(0x30, 5)`
satisfies the claim's stated precondition — the encoded output `"?"` is
non-empty and the single available group `0x1F` is non-zero — yet
`_dec (_enc b) = [0x1F] ≠ [0xFF]`: the encoder drops bits 5..7 of the byte and
the decoder zero-fills them, so the round trip fails for arbitrary byte
strings. -/
theorem c1_density_roundtrip_counterexample :
    ISO7811.availGroups 5 (8 * [0xFF].length) = 1 ∧
    ISO7811.grp 5 (streamBits [0xFF]) 0 = 0x1F ∧
    ISO7811._enc [0xFF] 0x30 5 = [0x3F] ∧
    ISO7811._dec (ISO7811._enc [0xFF] 0x30 5) 0x30 5 = [0x1F] ∧
    ISO7811._dec (ISO7811._enc [0xFF] 0x30 5) 0x30 5 ≠ [0xFF] := by
  refine ⟨by decide, by decide, by decide, by decide, by decide⟩

/-- Witness for `c1_density_roundtrip` at `b = [0x1F]`, track 2. -/
theorem c1_density_roundtrip_witness :
    ISO7811._dec (ISO7811._enc [0x1F] 0x30 5) 0x30 5 = [0x1F] :=
  c1_density_roundtrip 2 0x30 5 (by decide) [0x1F] (by decide) (by decide)
    (by decide) (by decide) (by decide)

/-! ## Claim C6: the encoding transform -/

/-- **C6** (amended).  `_enc` packs the byte stream least-significant-bit
first into `bits`-wide groups (each consisting of `bits - 1` data bits plus a
parity bit in the top position), emits `low +` the data bits of each group
taken (a group is taken only while it ends strictly before the end of the
input bit stream), and stops at the first group whose full `bits`-wide value —
data bits *and* parity bit together — is zero.  (The claim's stop condition
"data bits all zero after stripping parity" is refuted by
`c6_encode_characterisation_counterexample`.) -/
theorem c6_encode_characterisation (track low bits : Nat)
    (htrack : ISO7811._PARAM_MAP track = some (low, bits))
    (b : List Nat) (hbytes : ∀ x ∈ b, x < 256) :
    ISO7811._enc b low bits
      = (((List.range (ISO7811.availGroups bits (8 * b.length))).map
            (ISO7811.grp bits (streamBits b))).takeWhile (· ≠ 0)).map
          (fun g => g % 2 ^ (bits - 1) + low) := by
  obtain ⟨hb0, hb7⟩ := ISO7811.param_map_bits htrack
  rw [ISO7811._enc_eq b low bits hb0 hb7 hbytes]
  unfold ISO7811.encSpec
  rw [streamBits_length]

/-- **C6** counterexample.  On track 2 parameters, the input `[0x10]` has as
its first 5-bit group `0x10`: data bits `0` and parity bit `1`.  The claim
says encoding stops at this group (its data bits are all zero after stripping
the parity bit), i.e. emits nothing; the code only stops on a *fully* zero
group and emits the character `'0'` (0x30). -/
theorem c6_encode_characterisation_counterexample :
    ISO7811.grp 5 (streamBits [0x10]) 0 % 2 ^ 4 = 0 ∧
    ISO7811._enc [0x10] 0x30 5 = [0x30] := by
  refine ⟨by decide, by decide⟩

/-- Witness for `c6_encode_characterisation` at `b = [0x51]`, track 1. -/
theorem c6_encode_characterisation_witness :
    ISO7811._enc [0x51] 0x20 7
      = (((List.range (ISO7811.availGroups 7 (8 * [0x51].length))).map
            (ISO7811.grp 7 (streamBits [0x51]))).takeWhile (· ≠ 0)).map
          (fun g => g % 2 ^ 6 + 0x20) :=
  c6_encode_characterisation 1 0x20 7 (by decide) [0x51] (by decide)

/-! ## Claim C7: codec failure behaviour -/

/-- **C7** (amended).  `_enc` never fails on byte input, and `_dec` never
fails on *any* character input either — in- or out-of-range characters alike
are masked into the track's data-bit width and decoded: for every input list
of code points, `_dec` produces exactly the packed group bytes, in particular
`⌈len·bits/8⌉` bytes.  (The claim said decode fails exactly on inputs with an
out-of-range character; `c7_decode_total_counterexample` shows such an input
decoding to bytes instead.) -/
theorem c7_decode_total (track low bits : Nat)
    (htrack : ISO7811._PARAM_MAP track = some (low, bits)) (c : List Nat) :
    ISO7811._dec c low bits
      = packBytes ((c.map (fun d => toBits bits (ISO7811.fullGroup low bits d))).flatten)
    ∧ (ISO7811._dec c low bits).length = (c.length * bits + 7) / 8 := by
  obtain ⟨hb0, hb7⟩ := ISO7811.param_map_bits htrack
  refine ⟨ISO7811._dec_eq c low bits hb0 (by omega), ?_⟩
  rw [ISO7811._dec_eq c low bits hb0 (by omega)]
  unfold packBytes
  rw [List.length_map, List.length_range, flatten_length_toBits]

/-- **C7** counterexample.  `'z'` (0x7A) lies outside track 2's valid range
`[0x30, 0x3F]`; the claim requires `_dec` to report an error on any input
containing it, but `_dec` (a total function, faithfully mirroring the Python
generator, which cannot raise) instead produces the byte `0x1A`. -/
theorem c7_decode_total_counterexample :
    ISO7811._dec [0x7A] 0x30 5 = [0x1A] := by decide

/-- Witness for `c7_decode_total` at the out-of-range input `[0x7A]`, track 2. -/
theorem c7_decode_total_witness :
    ISO7811._dec [0x7A] 0x30 5
      = packBytes (([0x7A].map (fun d => toBits 5 (ISO7811.fullGroup 0x30 5 d))).flatten)
    ∧ (ISO7811._dec [0x7A] 0x30 5).length = ([0x7A].length * 5 + 7) / 8 :=
  c7_decode_total 2 0x30 5 (by decide) [0x7A]

/-! ## USB HID transport framing — embedding of `MSR605X` (`msrx/msr605x.py`) -/

namespace MSR605X

def SEQUENCE_START_BIT : Nat := 0b10000000
def SEQUENCE_END_BIT : Nat := 0b01000000
def SEQUENCE_LENGTH_BITS : Nat := 0b00111111

/-- `MSR605X._make_header(start_of_sequence, end_of_sequence, length)`;
`none` models the `ValueError` raised for `length > 63` (a negative length is
impossible on `Nat`). -/
def _make_header (start_of_sequence end_of_sequence : Bool) (length : Nat) : Option Nat :=
  if 63 < length then none
  else some ((length ||| (if start_of_sequence then SEQUENCE_START_BIT else 0))
    ||| (if end_of_sequence then SEQUENCE_END_BIT else 0))

/-- The `while idx < len(message)` loop of `MSR605X._encapsulate_message`,
fuelled (the fuel strictly exceeds the remaining length, which shrinks by 63
each iteration):

    payload = message[idx:idx+63]
    header = self._make_header(idx == 0, len(message) - idx < 64, len(payload))
    padding = b"\0" * (63 - len(payload))
    yield header + payload + padding
    idx += 63
-/
def encapsulateGo (message : List Nat) : Nat → Nat → Option (List (List Nat))
  | 0, _ => none
  | fuel + 1, idx =>
      if idx < message.length then
        let payload := (message.drop idx).take 63
        match _make_header (idx == 0) (decide (message.length - idx < 64)) payload.length with
        | none => none
        | some h =>
            match encapsulateGo message fuel (idx + 63) with
            | none => none
            | some rest => some ((h :: (payload ++ List.replicate (63 - payload.length) 0)) :: rest)
      else some []

/-- `MSR605X._encapsulate_message(message)`: the full packet sequence. -/
def _encapsulate_message (message : List Nat) : Option (List (List Nat)) :=
  encapsulateGo message (message.length + 1) 0

/-- Outcome of `MSR605X.recv_message` on a given packet sequence. -/
inductive RecvResult where
  | msg (payload : List Nat) : RecvResult
  | nothing : RecvResult
  | crash : RecvResult
  deriving DecidableEq, Repr

/-- The receive loop of `MSR605X.recv_message` run over a queue of available
packets (an exhausted queue models `_recv_packet` returning `None` on
timeout).  Note the source returns `payload` — the final packet's payload —
not the accumulated `message`:

    message = b""
    while True:
        packet = self._recv_packet(timeout=timeout)
        if packet is None and not message:
            return None
        payload_length = packet[0] & SEQUENCE_LENGTH_BITS
        payload = packet[1:1+payload_length]
        message = message + payload
        if packet[0] & SEQUENCE_END_BIT:
            break
    return payload

`crash` models the `TypeError` of `packet[0]` when `packet` is `None` but
`message` is non-empty. -/
def recvLoop : List (List Nat) → List Nat → RecvResult
  | [], message => if message = [] then .nothing else .crash
  | packet :: rest, message =>
      let payload_length := packet.headD 0 &&& SEQUENCE_LENGTH_BITS
      let payload := (packet.drop 1).take payload_length
      let message1 := message ++ payload
      if packet.headD 0 &&& SEQUENCE_END_BIT ≠ 0 then .msg payload
      else recvLoop rest message1

/-- `MSR605X.recv_message` over a packet queue. -/
def recv_message (packets : List (List Nat)) : RecvResult :=
  recvLoop packets []

/-- `MSR605X.flush`: `self.buffer = b''`.  No device I/O is performed, so the
queue of pending receive results is untouched. -/
def flush (buffer : List Nat) (queue : List (Option (List Nat))) :
    List Nat × List (Option (List Nat)) :=
  ([], queue)

/-- `MSR605X.read(count)`.  The device is modelled as a queue of pending
`recv_message` results (`none` = timed out / no data); exactly the receive
attempts the code performs pop the queue.  Returns
`(ret, buffer', queue', timeouts)` where `timeouts` lists the timeout value of
each receive attempt performed:

    buf_len = len(self.buffer)
    if count == 0: timeout = 100
    else:         timeout = 0
    if count > buf_len or count == 0:
        new_data = self.recv_message(timeout)
        if not new_data is None:
            self.buffer = self.buffer + new_data
    if count == 0:
        ret = self.buffer
        self.buffer = b''
    else:
        ret = self.buffer[:count]
        self.buffer = self.buffer[count:]
    return ret
-/
def read (count : Nat) (buffer : List Nat) (queue : List (Option (List Nat))) :
    List Nat × List Nat × List (Option (List Nat)) × List Nat :=
  let buf_len := buffer.length
  let timeout := if count = 0 then 100 else 0
  let step :=
    if buf_len < count ∨ count = 0 then
      ((match queue.headD none with
        | some new_data => buffer ++ new_data
        | none => buffer), queue.tail, [timeout])
    else (buffer, queue, ([] : List Nat))
  match step with
  | (buffer1, queue1, attempts) =>
      if count = 0 then (buffer1, [], queue1, attempts)
      else (buffer1.take count, buffer1.drop count, queue1, attempts)

/-- The packet `_encapsulate_message` produces for the chunk at offset `j`
(specification side, used to characterise the generator). -/
def packetAt (message : List Nat) (j : Nat) : List Nat :=
  let payload := (message.drop j).take 63
  ((payload.length ||| (if j == 0 then SEQUENCE_START_BIT else 0))
    ||| (if decide (message.length - j < 64) then SEQUENCE_END_BIT else 0))
  :: (payload ++ List.replicate (63 - payload.length) 0)

end MSR605X

namespace MSR605X

/-! ### Characterisation of `_encapsulate_message` -/

theorem encapsulateGo_eq (message : List Nat) : ∀ (fuel idx : Nat),
    message.length - idx < fuel →
    encapsulateGo message fuel idx
      = some ((List.range ((message.length - idx + 62) / 63)).map
          (fun k => packetAt message (idx + 63 * k))) := by
  intro fuel
  induction fuel with
  | zero => intro idx h; omega
  | succ fuel ih =>
      intro idx h
      by_cases hidx : idx < message.length
      · have hplen : ((message.drop idx).take 63).length ≤ 63 := by
          rw [List.length_take]; omega
        have hcount : (message.length - idx + 62) / 63
            = (message.length - (idx + 63) + 62) / 63 + 1 := by omega
        simp only [encapsulateGo, if_pos hidx, _make_header, if_neg (by omega : ¬ 63 < ((message.drop idx).take 63).length)]
        rw [ih (idx + 63) (by omega), hcount, List.range_succ_eq_map, List.map_cons,
          List.map_map]
        have hhead : packetAt message (idx + 63 * 0) = packetAt message idx := by
          rw [Nat.mul_zero, Nat.add_zero]
        have htail : List.map ((fun k => packetAt message (idx + 63 * k)) ∘ Nat.succ)
              (List.range ((message.length - (idx + 63) + 62) / 63))
            = List.map (fun k => packetAt message (idx + 63 + 63 * k))
              (List.range ((message.length - (idx + 63) + 62) / 63)) := by
          apply List.map_congr_left
          intro k _
          simp only [Function.comp_apply]
          congr 1
          omega
        rw [hhead, htail]
        rfl
      · simp only [encapsulateGo, if_neg hidx]
        rw [show (message.length - idx + 62) / 63 = 0 by omega]
        rfl

theorem encapsulate_eq (message : List Nat) :
    _encapsulate_message message
      = some ((List.range ((message.length + 62) / 63)).map
          (fun k => packetAt message (63 * k))) := by
  unfold _encapsulate_message
  rw [encapsulateGo_eq message (message.length + 1) 0 (by omega)]
  simp

/-! ### Header arithmetic -/

theorem header_decomp (plen s e : Nat) (hp : plen ≤ 63) (hs : s = 0 ∨ s = 128)
    (he : e = 0 ∨ e = 64) : (plen ||| s) ||| e = plen + s + e := by
  rw [Nat.lor_assoc, Nat.lor_comm s e, ← Nat.lor_assoc]
  have h1 : plen ||| e = plen + e := by
    rcases he with he | he
    · subst he; rw [Nat.or_zero, Nat.add_zero]
    · subst he
      have := lor_mul_pow_two (a := plen) 6 1 (by norm_num; omega)
      norm_num at this
      omega
  rw [h1]
  rcases hs with hs | hs
  · subst hs; rw [Nat.or_zero, Nat.add_zero]
  · subst hs
    have := lor_mul_pow_two (a := plen + e) 7 1 (by rcases he with he | he <;> norm_num <;> omega)
    norm_num at this
    omega

theorem header_testBit7 (plen s e : Nat) (hp : plen ≤ 63) (hs : s = 0 ∨ s = 128)
    (he : e = 0 ∨ e = 64) : ((plen ||| s) ||| e).testBit 7 = decide (s = 128) := by
  rw [header_decomp plen s e hp hs he, Nat.testBit_to_div_mod]
  rcases hs with hs | hs <;> rcases he with he | he <;> subst hs <;> subst he <;>
    norm_num <;> omega

theorem header_testBit6 (plen s e : Nat) (hp : plen ≤ 63) (hs : s = 0 ∨ s = 128)
    (he : e = 0 ∨ e = 64) : ((plen ||| s) ||| e).testBit 6 = decide (e = 64) := by
  rw [header_decomp plen s e hp hs he, Nat.testBit_to_div_mod]
  rcases hs with hs | hs <;> rcases he with he | he <;> subst hs <;> subst he <;>
    norm_num <;> omega

theorem header_land63 (plen s e : Nat) (hp : plen ≤ 63) (hs : s = 0 ∨ s = 128)
    (he : e = 0 ∨ e = 64) : ((plen ||| s) ||| e) &&& 63 = plen := by
  rw [header_decomp plen s e hp hs he, show (63 : Nat) = (1 <<< 6) - 1 from rfl,
    land_two_pow_sub_one]
  rcases hs with hs | hs <;> rcases he with he | he <;> subst hs <;> subst he <;>
    norm_num <;> omega

theorem getD_map_range {α : Type} (f : Nat → α) {n k : Nat} (d : α) (h : k < n) :
    ((List.range n).map f).getD k d = f k := by
  rw [List.getD_eq_getElem?_getD, List.getElem?_map, List.getElem?_range h]
  rfl

theorem packetAt_head (message : List Nat) (j : Nat) :
    (packetAt message j).headD 0
      = ((((message.drop j).take 63).length ||| (if j == 0 then SEQUENCE_START_BIT else 0))
        ||| (if decide (message.length - j < 64) then SEQUENCE_END_BIT else 0)) := rfl

theorem packetAt_length (message : List Nat) (j : Nat) :
    (packetAt message j).length = 64 := by
  simp only [packetAt, List.length_cons, List.length_append, List.length_replicate,
    List.length_take, List.length_drop]
  omega

end MSR605X

/-! ## Claim C3: fragmentation packet properties -/

/-- **C3** (amended).  `_encapsulate_message` produces exactly
`⌈len/63⌉` packets — which is *zero* for an empty message, not a minimum of
one (see `c3_fragment_properties_counterexample`).  For every non-empty
message: each packet is exactly 64 bytes; the `start_of_sequence` bit (bit 7)
is set on exactly the first packet, the `end_of_sequence` bit (bit 6) on
exactly the last, and each packet's `payload_length` field (low 6 bits) equals
its chunk's byte count. -/
theorem c3_fragment_properties (message : List Nat) (hne : message ≠ []) :
    ∃ ps, MSR605X._encapsulate_message message = some ps
      ∧ ps.length = (message.length + 62) / 63
      ∧ (∀ p ∈ ps, p.length = 64)
      ∧ (∀ k, k < ps.length → ((ps.getD k []).headD 0).testBit 7 = decide (k = 0))
      ∧ (∀ k, k < ps.length → ((ps.getD k []).headD 0).testBit 6 = decide (k = ps.length - 1))
      ∧ (∀ k, k < ps.length → (ps.getD k []).headD 0 &&& 63
          = ((message.drop (63 * k)).take 63).length) := by
  have hL : 0 < message.length := List.length_pos.mpr hne
  refine ⟨_, MSR605X.encapsulate_eq message, ?_, ?_, ?_, ?_, ?_⟩
  · rw [List.length_map, List.length_range]
  · intro p hp
    obtain ⟨k, _, rfl⟩ := List.mem_map.mp hp
    exact MSR605X.packetAt_length message (63 * k)
  · intro k hk
    rw [List.length_map, List.length_range] at hk
    rw [MSR605X.getD_map_range _ _ hk, MSR605X.packetAt_head,
      MSR605X.header_testBit7 _ _ _ (by rw [List.length_take]; omega)
        (by split <;> simp [MSR605X.SEQUENCE_START_BIT])
        (by split <;> simp [MSR605X.SEQUENCE_END_BIT])]
    by_cases hk0 : k = 0
    · subst hk0; simp [MSR605X.SEQUENCE_START_BIT]
    · have h63 : ¬ ((63 * k == 0) = true) := by simp; omega
      simp only [if_neg h63, hk0]
      simp
  · intro k hk
    rw [List.length_map, List.length_range] at hk ⊢
    rw [MSR605X.getD_map_range _ _ hk, MSR605X.packetAt_head,
      MSR605X.header_testBit6 _ _ _ (by rw [List.length_take]; omega)
        (by split <;> simp [MSR605X.SEQUENCE_START_BIT])
        (by split <;> simp [MSR605X.SEQUENCE_END_BIT])]
    by_cases hend : message.length - 63 * k < 64
    · rw [if_pos (by simpa using hend)]
      have hlast : k = (message.length + 62) / 63 - 1 := by omega
      simp [MSR605X.SEQUENCE_END_BIT, hlast]
    · rw [if_neg (by simpa using hend)]
      have hlast : ¬ (k = (message.length + 62) / 63 - 1) := by omega
      simp [hlast]
  · intro k hk
    rw [List.length_map, List.length_range] at hk
    rw [MSR605X.getD_map_range _ _ hk, MSR605X.packetAt_head,
      MSR605X.header_land63 _ _ _ (by rw [List.length_take]; omega)
        (by split <;> simp [MSR605X.SEQUENCE_START_BIT])
        (by split <;> simp [MSR605X.SEQUENCE_END_BIT])]

/-- **C3** counterexample.  For the empty message the `while idx < len` loop
never runs: `_encapsulate_message(b"")` yields *no* packets, contradicting the
claimed minimum of one packet (with `end_of_sequence` set) for an empty
message. -/
theorem c3_fragment_properties_counterexample :
    MSR605X._encapsulate_message [] = some [] ∧ ([] : List (List Nat)).length = 0 := by
  refine ⟨by decide, rfl⟩

/-- Witness for `c3_fragment_properties` at a 64-byte message (two packets). -/
theorem c3_fragment_properties_witness :
    ∃ ps, MSR605X._encapsulate_message (List.replicate 64 0x41) = some ps
      ∧ ps.length = 2
      ∧ (∀ p ∈ ps, p.length = 64)
      ∧ (∀ k, k < ps.length → ((ps.getD k []).headD 0).testBit 7 = decide (k = 0))
      ∧ (∀ k, k < ps.length → ((ps.getD k []).headD 0).testBit 6 = decide (k = ps.length - 1))
      ∧ (∀ k, k < ps.length → (ps.getD k []).headD 0 &&& 63
          = (((List.replicate 64 0x41 : List Nat).drop (63 * k)).take 63).length) :=
  c3_fragment_properties (List.replicate 64 0x41) (by decide)

/-! ## Claim C2: fragmentation round trip -/

/-- **C2** (code bug).  Reassembling the fragmented packets of a 64-byte
message yields only the *last* packet's payload, `b"B"`, not the message:
`recv_message` accumulates `message = message + payload` but then executes
`return payload`, discarding the accumulation — contradicting its own
docstring ("Receive message from the MSR605X") and the README's protocol
description.  For the empty message the round trip also fails: fragmentation
yields no packets, and the receive algorithm reports `None` ("nothing"). -/
theorem c2_fragmentation_roundtrip_bug :
    (MSR605X._encapsulate_message (List.replicate 63 0x41 ++ [0x42])).map MSR605X.recv_message
      = some (MSR605X.RecvResult.msg [0x42])
    ∧ MSR605X.RecvResult.msg [0x42]
      ≠ MSR605X.RecvResult.msg (List.replicate 63 0x41 ++ [0x42])
    ∧ MSR605X._encapsulate_message [] = some []
    ∧ MSR605X.recv_message [] = MSR605X.RecvResult.nothing := by
  refine ⟨by decide, by decide, by decide, by decide⟩

/-! ## Claim C9: the adapter's byte-stream read -/

/-- **C9** (amended).  `read(0)` performs one receive attempt with the short
timeout (100), then returns everything buffered (including the newly received
bytes) and empties the buffer.  `read(n > 0)` with `n ≤ buffered` performs no
receive and returns exactly `n` bytes, retaining the rest.  `read(n > 0)` with
`n > buffered` performs exactly *one* blocking receive attempt (timeout 0) —
it does not loop until `n` bytes are buffered — and then returns the first
`min(n, buffered)` bytes, which can be fewer than `n`
(see `c9_read_stream_counterexample`), retaining any remainder. -/
theorem c9_read_stream (count : Nat) (buffer : List Nat)
    (queue : List (Option (List Nat))) :
    (count = 0 →
      MSR605X.read count buffer queue
        = (buffer ++ (queue.headD none).getD [], [], queue.tail, [100]))
    ∧ (0 < count → count ≤ buffer.length →
      MSR605X.read count buffer queue
        = (buffer.take count, buffer.drop count, queue, []))
    ∧ (buffer.length < count →
      MSR605X.read count buffer queue
        = ((buffer ++ (queue.headD none).getD []).take count,
           (buffer ++ (queue.headD none).getD []).drop count, queue.tail, [0])) := by
  refine ⟨?_, ?_, ?_⟩
  · intro h0
    subst h0
    simp only [MSR605X.read, if_pos (Or.inr rfl), if_pos rfl]
    cases queue.headD none with
    | some nd => rfl
    | none => simp
  · intro hpos hle
    have hcond : ¬ (buffer.length < count ∨ count = 0) := by omega
    simp only [MSR605X.read, if_neg hcond, if_neg (by omega : ¬ count = 0)]
  · intro hlt
    have hcond : buffer.length < count ∨ count = 0 := Or.inl hlt
    have hc0 : ¬ count = 0 := by omega
    simp only [MSR605X.read, if_pos hcond, if_neg hc0]
    cases queue.headD none with
    | some nd => rfl
    | none => simp

/-- **C9** counterexample.  With an empty buffer, `read(5)` performs its one
receive attempt, obtains only two bytes, and returns those two bytes — not the
five the claim promises ("blocks until at least n bytes are buffered, returns
exactly n"). -/
theorem c9_read_stream_counterexample :
    (MSR605X.read 5 [] [some [0x41, 0x42]]).1 = [0x41, 0x42]
    ∧ (MSR605X.read 5 [] [some [0x41, 0x42]]).1.length ≠ 5 := by
  refine ⟨rfl, by decide⟩

/-- Witness for `c9_read_stream`: the three branches at concrete states. -/
theorem c9_read_stream_witness :
    MSR605X.read 0 [0x01] [some [0x02]] = ([0x01, 0x02], [], [], [100])
    ∧ MSR605X.read 2 [0x01, 0x02, 0x03] [some [0x04]]
        = ([0x01, 0x02], [0x03], [some [0x04]], [])
    ∧ MSR605X.read 3 [0x01] [some [0x02]] = ([0x01, 0x02], [], [], [0]) := by
  refine ⟨?_, ?_, ?_⟩
  · have h := (c9_read_stream 0 [0x01] [some [0x02]]).1 rfl
    simpa using h
  · have h := (c9_read_stream 2 [0x01, 0x02, 0x03] [some [0x04]]).2.1 (by decide) (by decide)
    simpa using h
  · have h := (c9_read_stream 3 [0x01] [some [0x02]]).2.2 (by decide)
    simpa using h

/-! ## Claim C10: flush -/

/-- **C10**.  `flush` unconditionally empties the internal receive buffer and
performs no device I/O (the pending-receive queue is untouched); consequently
the behaviour of every later `read` call is independent of whatever was
buffered before the flush — those bytes can never be observed again. -/
theorem c10_flush_discards (buffer : List Nat) (queue : List (Option (List Nat))) :
    MSR605X.flush buffer queue = ([], queue)
    ∧ (∀ (buffer2 : List Nat) (count : Nat),
        MSR605X.read count (MSR605X.flush buffer queue).1 (MSR605X.flush buffer queue).2
          = MSR605X.read count (MSR605X.flush buffer2 queue).1
              (MSR605X.flush buffer2 queue).2) :=
  ⟨rfl, fun _ _ => rfl⟩

/-! ## Command protocol — embedding of `MSRX` (`msrx/__init__.py`)

The serial device is modelled as the byte stream of its reply; `read(n)`
takes `n` bytes off the stream (blocking forever — modelled as fuel
exhaustion — when the stream is exhausted).  Commands sent to the device are
collected as emitted byte lists. -/

namespace MSRX

/-- The two error kinds of the library: `ProtocolError(msg)` and
`DeviceError(code)` (whose message is `'MSR605 %s error' % code`). -/
inductive MError where
  | protocolError (msg : String) : MError
  | deviceError (code : String) : MError
  deriving DecidableEq, Repr

/-- `DeviceError.RW / CMD / SWP / ERASE`. -/
def DeviceError.RW : String := "read_write"
def DeviceError.CMD : String := "command"
def DeviceError.SWP : String := "swipe"
def DeviceError.ERASE : String := "erase"

/-- `MSRX._DEV_ERR = {b'1': RW, b'2': CMD, b'4': CMD, b'9': SWP, b'A': ERASE}`. -/
def _DEV_ERR : List (List Nat × String) :=
  [([0x31], DeviceError.RW), ([0x32], DeviceError.CMD), ([0x34], DeviceError.CMD),
   ([0x39], DeviceError.SWP), ([0x41], DeviceError.ERASE)]

/-- One hex digit, lowercase, as produced by `binascii.hexlify`. -/
def hexDigit (n : Nat) : Char :=
  if n < 10 then Char.ofNat (48 + n) else Char.ofNat (87 + n)

/-- Two lowercase hex digits of a byte. -/
def hexByte (b : Nat) : String :=
  String.mk [hexDigit (b / 16), hexDigit (b % 16)]

/-- `binascii.hexlify` of a byte string. -/
def hexlify (l : List Nat) : String :=
  String.join (l.map hexByte)

/-- `MSRX._expect(d)`: read `len(d)` bytes and compare; on mismatch raise
`ProtocolError('expected %s, got %s' % (hexlify(d), hexlify(rd)))`.  Returns
the remaining stream on success. -/
def _expect (d : List Nat) (stream : List Nat) : Except MError (List Nat) :=
  let rd := stream.take d.length
  if rd = d then .ok (stream.drop d.length)
  else .error (.protocolError ("expected " ++ hexlify d ++ ", got " ++ hexlify rd))

/-- `MSRX._handle_status()`:

    self._expect(b'\x1b')
    status = self._dev.read(1)
    if status == b'0': return
    elif status in self._DEV_ERR: raise DeviceError(self._DEV_ERR[status])
    else: raise ProtocolError("invalid status %s" % binascii.hexlify(status))
-/
def _handle_status (stream : List Nat) : Except MError (List Nat) :=
  match _expect [0x1B] stream with
  | .error e => .error e
  | .ok s1 =>
      let status := s1.take 1
      if status = [0x30] then .ok (s1.drop 1)
      else
        match _DEV_ERR.lookup status with
        | some code => .error (.deviceError code)
        | none => .error (.protocolError ("invalid status " ++ hexlify status))

/-- The two nested `while True` loops of `MSRX.read`, fuelled (every
iteration consumes at least one stream byte; `none` = the code would block
forever reading a byte that never arrives).  `mode = none` is the outer loop;
`mode = some t` is the inner loop collecting bytes for track index `t`.

Outer loop: `'?'` → expect FS, parse status, return the tracks; ESC followed
by a byte `≤ _TRACK_CNT` → enter that track's inner loop (Python's
`t = ord(d) - 1` makes byte `0` address `tracks[-1]`, the last track); any
other byte is silently dropped.  Inner loop: ESC → read one more byte
(discarded) and fall back to the outer loop; `'%'`/`';'` → skipped; `'?'` →
back to the outer loop; anything else → appended via `tracks[t] += d`. -/
def readLoop : Nat → List Nat → List (List Nat) → Option Nat →
    Option (Except MError (List (List Nat) × List Nat))
  | 0, _, _, _ => none
  | fuel + 1, stream, tracks, none =>
      match stream with
      | [] => none
      | d :: s =>
          if d = 0x3F then
            match _expect [0x1C] s with
            | .error e => some (.error e)
            | .ok s2 =>
                match _handle_status s2 with
                | .error e => some (.error e)
                | .ok s3 => some (.ok (tracks, s3))
          else if d = 0x1B then
            match s with
            | [] => none
            | d2 :: s2 =>
                if d2 ≤ 3 then
                  readLoop fuel s2 tracks (some (if d2 = 0 then 2 else d2 - 1))
                else readLoop fuel s2 tracks none
          else readLoop fuel s tracks none
  | fuel + 1, stream, tracks, some t =>
      match stream with
      | [] => none
      | d :: s =>
          if d = 0x1B then
            match s with
            | [] => none
            | _ :: s2 => readLoop fuel s2 tracks none
          else if d = 0x25 ∨ d = 0x3B then readLoop fuel s tracks (some t)
          else if d = 0x3F then readLoop fuel s tracks none
          else readLoop fuel s (tracks.set t (tracks.getD t [] ++ [d])) (some t)

/-- `MSRX.read()` on a device reply stream: after sending the read command
(`ESC 'r'`), expect the echoed `ESC 's'`, then run the track-read state
machine on the remainder. -/
def read (stream : List Nat) : Option (Except MError (List (List Nat) × List Nat)) :=
  match _expect [0x1B, 0x73] stream with
  | .error e => some (.error e)
  | .ok s => readLoop (s.length + 1) s [[], [], []] none

/-- `MSRX.write(tracks)` in mode `raw`: the emitted command bytes, and the
status parse of the device's reply.

    if _RAW: self._send(b'\x1bn\x1bs')
    else:    self._send(b'\x1bw\x1bs')
    for t, i in zip(tracks, range(_TRACK_CNT)):
      if _RAW: self._send(b'\x1b' + to_byte(i + 1) + to_byte(len(t)) + t)
      else:    self._send(b'\x1b' + to_byte(i + 1) + t)
    self._send(b'?\x1c')
    self._handle_status()

(`to_byte(len(t))` = `bytes([len(t)])` additionally requires `len(t) < 256`
in Python — it raises `ValueError` otherwise; theorems about the raw mode
carry that bound as a hypothesis.) -/
def write (raw : Bool) (tracks : List (List Nat)) (reply : List Nat) :
    List Nat × Except MError (List Nat) :=
  ((if raw then [0x1B, 0x6E, 0x1B, 0x73] else [0x1B, 0x77, 0x1B, 0x73])
    ++ ((tracks.zip (List.range 3)).map
        (fun ti => [0x1B, ti.2 + 1] ++ (if raw then [ti.1.length] else []) ++ ti.1)).flatten
    ++ [0x3F, 0x1C],
   _handle_status reply)

end MSRX

namespace MSRX

theorem hexlify_singleton (b : Nat) : hexlify [b] = hexByte b := by
  simp [hexlify, hexByte, String.join]

theorem lookup_dev_err_none (s : Nat) (h31 : s ≠ 0x31) (h32 : s ≠ 0x32) (h34 : s ≠ 0x34)
    (h39 : s ≠ 0x39) (h41 : s ≠ 0x41) : _DEV_ERR.lookup [s] = none := by
  have e31 : (s == 0x31) = false := by simp [h31]
  have e32 : (s == 0x32) = false := by simp [h32]
  have e34 : (s == 0x34) = false := by simp [h34]
  have e39 : (s == 0x39) = false := by simp [h39]
  have e41 : (s == 0x41) = false := by simp [h41]
  simp [_DEV_ERR, List.lookup, e31, e32, e34, e39, e41]

theorem expect_esc_ok (tail : List Nat) : _expect [0x1B] (0x1B :: tail) = .ok tail := rfl

theorem expect_esc_ne (b : Nat) (tail : List Nat) (hb : b ≠ 0x1B) :
    _expect [0x1B] (b :: tail)
      = .error (.protocolError ("expected 1b, got " ++ hexByte b)) := by
  unfold _expect
  simp only [List.length_cons, List.length_nil, List.take_succ_cons, List.take_zero]
  rw [if_neg (by simp [hb])]
  rw [hexlify_singleton, hexlify_singleton]
  rfl

end MSRX

/-! ## Claim C4: status handling -/

/-- **C4**.  `_handle_status` first expects an escape byte (anything else is
a protocol error naming expected and actual bytes in hex), then reads one
status byte `s`: `'0'` (0x30) succeeds; `'1'` → read/write device error;
`'2'` and `'4'` → command device error; `'9'` → swipe device error; `'A'` →
erase device error; any other byte raises a `ProtocolError` whose message
names the unexpected byte in hex. -/
theorem c4_status_mapping (s b : Nat) (rest : List Nat) (hb : b ≠ 0x1B) :
    (MSRX._handle_status (0x1B :: s :: rest)
      = if s = 0x30 then .ok rest
        else if s = 0x31 then .error (.deviceError MSRX.DeviceError.RW)
        else if s = 0x32 then .error (.deviceError MSRX.DeviceError.CMD)
        else if s = 0x34 then .error (.deviceError MSRX.DeviceError.CMD)
        else if s = 0x39 then .error (.deviceError MSRX.DeviceError.SWP)
        else if s = 0x41 then .error (.deviceError MSRX.DeviceError.ERASE)
        else .error (.protocolError ("invalid status " ++ MSRX.hexByte s)))
    ∧ MSRX._handle_status (b :: s :: rest)
        = .error (.protocolError ("expected 1b, got " ++ MSRX.hexByte b)) := by
  constructor
  · by_cases h30 : s = 0x30
    · subst h30; rfl
    · by_cases h31 : s = 0x31
      · subst h31; rfl
      · by_cases h32 : s = 0x32
        · subst h32; rfl
        · by_cases h34 : s = 0x34
          · subst h34; rfl
          · by_cases h39 : s = 0x39
            · subst h39; rfl
            · by_cases h41 : s = 0x41
              · subst h41; rfl
              · rw [if_neg h30, if_neg h31, if_neg h32, if_neg h34, if_neg h39, if_neg h41]
                simp only [MSRX._handle_status, MSRX.expect_esc_ok,
                  List.take_succ_cons, List.take_zero, List.drop_succ_cons, List.drop_zero]
                rw [if_neg (by simp [h30]),
                  MSRX.lookup_dev_err_none s h31 h32 h34 h39 h41, MSRX.hexlify_singleton]
  · simp only [MSRX._handle_status, MSRX.expect_esc_ne b (s :: rest) hb]

/-- Witness for `c4_status_mapping` at status byte `'9'` (swipe error) and
non-escape first byte `0x20`. -/
theorem c4_status_mapping_witness :
    (MSRX._handle_status [0x1B, 0x39, 0x7F]
      = Except.error (.deviceError MSRX.DeviceError.SWP))
    ∧ MSRX._handle_status [0x20, 0x39, 0x7F]
      = Except.error (.protocolError ("expected 1b, got " ++ MSRX.hexByte 0x20)) := by
  have h := c4_status_mapping 0x39 0x20 [0x7F] (by decide)
  refine ⟨?_, h.2⟩
  have h1 := h.1
  simpa using h1

/-! ## Claim C5: track-read state machine scenario -/

/-- **C5**.  On the device reply stream framing track 1 = `"ABC"`,
track 2 = empty, track 3 = `"XY"` — echoed `ESC 's'`; for each track
`ESC <track-number>`, its sentinel-wrapped data (`'%'`/`';'` start sentinels,
`'?'` end sentinel); then the terminator `'?' FS` and the success status
`ESC '0'` — `read()` returns the three track buffers `("ABC", "", "XY")` with
the padding characters `'%'` and `';'` never stored, and consumes the entire
terminator and status sequence (nothing of the stream remains). -/
theorem c5_track_read_scenario :
    MSRX.read ([0x1B, 0x73]                             -- echoed ESC 's'
        ++ [0x1B, 0x01] ++ [0x25, 0x41, 0x42, 0x43, 0x3F]  -- track 1: % A B C ?
        ++ [0x1B, 0x02] ++ [0x3B, 0x3F]                    -- track 2: ; ?
        ++ [0x1B, 0x03] ++ [0x3B, 0x58, 0x59, 0x3F]        -- track 3: ; X Y ?
        ++ [0x3F, 0x1C]                                    -- terminator '?' FS
        ++ [0x1B, 0x30])                                   -- status ESC '0'
      = some (Except.ok ([[0x41, 0x42, 0x43], [], [0x58, 0x59]], [])) := by
  rfl

/-! ## Claim C8: write emission -/

/-- **C8** (amended).  `write((t1, t2, t3))` emits the write-mode command
(`ESC 'w' ESC 's'` ascii / `ESC 'n' ESC 's'` raw), then for **every** track —
including preserved tracks, passed as the empty byte string — an escape byte,
the track number byte, a length byte only in raw mode, and the track's data
(empty for a preserved track), and finally `'?' FS`, after which it parses one
status response.  (The claim's restriction of the per-track block to
non-preserved tracks is refuted by `c8_write_emission_counterexample`: the
code's loop runs over all three tracks unconditionally.)  The length bounds
mirror Python's `to_byte`, which requires a value below 256. -/
theorem c8_write_emission (raw : Bool) (t1 t2 t3 : List Nat) (reply : List Nat)
    (h1 : t1.length < 256) (h2 : t2.length < 256) (h3 : t3.length < 256) :
    MSRX.write raw [t1, t2, t3] reply
      = ((if raw then [0x1B, 0x6E, 0x1B, 0x73] else [0x1B, 0x77, 0x1B, 0x73])
          ++ ([0x1B, 0x01] ++ (if raw then [t1.length] else []) ++ t1)
          ++ ([0x1B, 0x02] ++ (if raw then [t2.length] else []) ++ t2)
          ++ ([0x1B, 0x03] ++ (if raw then [t3.length] else []) ++ t3)
          ++ [0x3F, 0x1C],
         MSRX._handle_status reply) := by
  cases raw <;>
    simp [MSRX.write, List.zip, show List.range 3 = [0, 1, 2] from rfl, List.append_assoc]

/-- **C8** counterexample.  Writing `((b"", b"", b"X"))` in ascii mode: tracks
1 and 2 are preserved (empty), yet the emitted stream still contains their
`ESC <track-number>` headers — it is not the sequence the claim describes,
which omits preserved tracks entirely. -/
theorem c8_write_emission_counterexample :
    (MSRX.write false [[], [], [0x58]] []).1
      = [0x1B, 0x77, 0x1B, 0x73, 0x1B, 0x01, 0x1B, 0x02, 0x1B, 0x03, 0x58, 0x3F, 0x1C]
    ∧ (MSRX.write false [[], [], [0x58]] []).1
      ≠ [0x1B, 0x77, 0x1B, 0x73, 0x1B, 0x03, 0x58, 0x3F, 0x1C] := by
  refine ⟨by decide, by decide⟩

/-- Witness for `c8_write_emission`: raw mode, with a preserved track 2. -/
theorem c8_write_emission_witness :
    MSRX.write true [[0x10], [], [0x20, 0x21]] [0x1B, 0x30]
      = ([0x1B, 0x6E, 0x1B, 0x73, 0x1B, 0x01, 0x01, 0x10, 0x1B, 0x02, 0x00,
          0x1B, 0x03, 0x02, 0x20, 0x21, 0x3F, 0x1C],
         MSRX._handle_status [0x1B, 0x30]) := by
  have h := c8_write_emission true [0x10] [] [0x20, 0x21] [0x1B, 0x30]
    (by decide) (by decide) (by decide)
  simpa using h

